import Mathlib

/-!
Verification of the event-platform repository's core logic:
slug generation, date/time normalization and the event pre-save hook
(`src/database/event.model.ts`), booking email validation and the
referential-existence pre-save hook (`src/database/booking.model.ts`),
and the memoized database-connection manager (the `connectToDatabase`
module).

Strings are modelled on their character lists.  JavaScript string
primitives (`trim`, `toLowerCase`, regular-expression matching) are
embedded as executable Lean functions over `Char`; only the ASCII
behaviour relevant to the validators is modelled, and `new Date(...)`
parsing is kept abstract as an environment parameter.
-/

/-- Characters treated as whitespace by the JavaScript `trim()` /`\s`
model: space, tab, LF, VT, FF, CR, NBSP and the BOM. -/
def jsWhitespace (c : Char) : Bool :=
  c.toNat = 32 || c.toNat = 9 || c.toNat = 10 || c.toNat = 11 ||
  c.toNat = 12 || c.toNat = 13 || c.toNat = 160 || c.toNat = 65279

/-- ASCII model of JavaScript `String.prototype.toLowerCase` on a single
character: map `A`–`Z` to `a`–`z`, leave everything else unchanged. -/
def jsToLower (c : Char) : Char :=
  if 65 ≤ c.toNat ∧ c.toNat ≤ 90 then Char.ofNat (c.toNat + 32) else c

/-- Drop trailing characters satisfying `p` (helper for `trim`). -/
def dropTrailing (p : Char → Bool) (l : List Char) : List Char :=
  (l.reverse.dropWhile p).reverse

/-- `trimChars` models JavaScript `String.prototype.trim` on the
character list: remove leading and trailing whitespace. -/
def trimChars (l : List Char) : List Char :=
  dropTrailing jsWhitespace (l.dropWhile jsWhitespace)

/-- JavaScript `value.trim()` on strings. -/
def jsTrim (s : String) : String :=
  ⟨trimChars s.data⟩

/-- The character class `[a-z0-9]` of the `slugify` regex: the
characters kept (not replaced by a hyphen). -/
def isSlugChar (c : Char) : Bool :=
  (97 ≤ c.toNat && c.toNat ≤ 122) || (48 ≤ c.toNat && c.toNat ≤ 57)

/-- One pass of `replace(/[^a-z0-9]+/g, '-')`: each maximal run of
non-`[a-z0-9]` characters becomes a single `'-'`.  The boolean flag
records whether we are inside such a run (its hyphen already emitted). -/
def collapseRuns : Bool → List Char → List Char
  | _, [] => []
  | inRun, c :: cs =>
    if isSlugChar c then c :: collapseRuns false cs
    else if inRun then collapseRuns true cs
    else '-' :: collapseRuns true cs

/-- `replace(/^-+|-+$/g, '')`: strip leading and trailing hyphen runs. -/
def stripHyphens (l : List Char) : List Char :=
  dropTrailing (fun c => c = '-') (l.dropWhile (fun c => c = '-'))

/-- `slugify` from `src/database/event.model.ts`: trim the title,
lower-case it, replace every run of non-alphanumeric characters by a
single hyphen, and strip leading/trailing hyphens. -/
def slugify (title : String) : String :=
  ⟨stripHyphens (collapseRuns false ((trimChars title.data).map jsToLower))⟩

/-- Reference definition following the specification's words only:
"lower-case the title, replace every run of one-or-more non-alphanumeric
characters with a single hyphen, strip leading/trailing hyphens"
(no initial trim step). -/
def slugifySpec (title : String) : String :=
  ⟨stripHyphens (collapseRuns false (title.data.map jsToLower))⟩

example : slugify "Re-Act Conf!" = "re-act-conf" := by decide
example : slugify "  Hello, World  " = "hello-world" := by decide
example : slugify "---" = "" := by decide
example : slugifySpec "Re-Act Conf!" = "re-act-conf" := by decide

/-! ### Date normalization (`normalizeDate`, `src/database/event.model.ts`) -/

/-- The regex `^\d{4}-\d{2}-\d{2}$`: four digits, hyphen, two digits,
hyphen, two digits. -/
def isoDatePattern (s : String) : Bool :=
  match s.data with
  | [y1, y2, y3, y4, '-', m1, m2, '-', d1, d2] =>
    [y1, y2, y3, y4, m1, m2, d1, d2].all Char.isDigit
  | _ => false

/-- Abstract model of the JavaScript `Date` engine:
`parseToUtcDate s` stands for `new Date(s)` followed by
`toISOString().slice(0, 10)`, returning `none` exactly when
`Number.isNaN(parsed.getTime())` holds (unparsable input). -/
structure JsDateEnv where
  parseToUtcDate : String → Option String

/-- `normalizeDate` from `src/database/event.model.ts`: trim; fail on
empty; pass through inputs already matching `YYYY-MM-DD`; otherwise
parse as a general date and render the UTC calendar date, failing when
the parse yields an invalid date. -/
def normalizeDate (env : JsDateEnv) (value : String) : Except String String :=
  let trimmed := jsTrim value
  if trimmed = "" then
    .error "Date is required and cannot be empty."
  else if isoDatePattern trimmed then
    .ok trimmed
  else
    match env.parseToUtcDate trimmed with
    | none => .error ("Invalid date format: \"" ++ value ++ "\".")
    | some d => .ok d

/-- A date environment that parses nothing (used to witness behaviour
that is independent of the `Date` engine). -/
def nullDateEnv : JsDateEnv := ⟨fun _ => none⟩

/-- A date environment recording the one general-date parse used by the
specification's example, as the JavaScript engine resolves it in a UTC
environment: `new Date("May 1, 2024")` is the calendar date 2024-05-01. -/
def mayDateEnv : JsDateEnv :=
  ⟨fun s => if s = "May 1, 2024" then some "2024-05-01" else none⟩

example : normalizeDate nullDateEnv "2024-05-01" = .ok "2024-05-01" := rfl
example : normalizeDate mayDateEnv "May 1, 2024" = .ok "2024-05-01" := rfl
example : normalizeDate nullDateEnv "2024-13-99" = .ok "2024-13-99" := rfl

/-! ### Time normalization (`normalizeTime`, `src/database/event.model.ts`) -/

/-- Numeric value of a decimal digit character. -/
def digitVal (c : Char) : Nat := c.toNat - 48

/-- The regex `^(\d{1,2}):(\d{2})$` together with `Number(...)` on the
two capture groups: `some (hours, minutes)` on a match, `none`
otherwise. -/
def timeMatch (s : String) : Option (Nat × Nat) :=
  match s.data with
  | [h1, ':', m1, m2] =>
    if h1.isDigit && m1.isDigit && m2.isDigit then
      some (digitVal h1, 10 * digitVal m1 + digitVal m2)
    else none
  | [h1, h2, ':', m1, m2] =>
    if h1.isDigit && h2.isDigit && m1.isDigit && m2.isDigit then
      some (10 * digitVal h1 + digitVal h2, 10 * digitVal m1 + digitVal m2)
    else none
  | _ => none

/-- `toString().padStart(2, '0')` on a parsed hour/minute value. -/
def pad2 (n : Nat) : String :=
  if n < 10 then "0" ++ toString n else toString n

/-- `normalizeTime` from `src/database/event.model.ts`: trim; fail on
empty; match `^(\d{1,2}):(\d{2})$`; fail when hour or minute is out of
range; otherwise return the zero-padded `HH:mm` string.  (The source's
`Number.isInteger` and negativity checks are vacuous on digit captures,
and the values are naturals here.) -/
def normalizeTime (value : String) : Except String String :=
  let trimmed := jsTrim value
  if trimmed = "" then
    .error "Time is required and cannot be empty."
  else
    match timeMatch trimmed with
    | none => .error ("Invalid time format (expected HH:mm): \"" ++ value ++ "\".")
    | some (hours, minutes) =>
      if hours > 23 || minutes > 59 then
        .error ("Invalid time value: \"" ++ value ++ "\".")
      else
        .ok (pad2 hours ++ ":" ++ pad2 minutes)

example : normalizeTime "09:05" = .ok "09:05" := rfl
example : normalizeTime "23:59" = .ok "23:59" := rfl
example : normalizeTime " 9:30 " = .ok "09:30" := rfl
example : (normalizeTime "9:5").isOk = false := by decide
example : (normalizeTime "24:00").isOk = false := by decide
example : (normalizeTime "12:60").isOk = false := by decide

/-! ### Event pre-save hook (`eventSchema.pre('save')`) -/

/-- The string fields of an event document touched by the pre-save
hook (the remaining fields are inert there). -/
structure EventDoc where
  title : String
  slug : String
  date : String
  time : String
deriving DecidableEq, Repr

/-- The document's modified-paths set as seen by `this.isModified(...)`
for the three fields the hook could consult.  A newly created document
has every path modified. -/
structure ModifiedPaths where
  title : Bool
  date : Bool
  time : Bool

/-- The `eventSchema.pre('save')` hook: recompute `slug` from `title`
only when `title` is modified, then unconditionally normalize `date`
and `time`; any thrown error aborts the save via `next(error)`. -/
def eventPreSave (env : JsDateEnv) (mods : ModifiedPaths) (doc : EventDoc) :
    Except String EventDoc :=
  let doc1 := if mods.title then { doc with slug := slugify doc.title } else doc
  match normalizeDate env doc1.date with
  | .error e => .error e
  | .ok d =>
    match normalizeTime doc1.time with
    | .error e => .error e
    | .ok t => .ok { doc1 with date := d, time := t }

example :
    eventPreSave nullDateEnv ⟨true, false, false⟩
      ⟨"My Event!", "", "2024-05-01", "9:30"⟩ =
      .ok ⟨"My Event!", "my-event", "2024-05-01", "09:30"⟩ := rfl
example :
    eventPreSave nullDateEnv ⟨false, true, true⟩
      ⟨"My Event!", "old-slug", "2024-05-01", "9:30"⟩ =
      .ok ⟨"My Event!", "old-slug", "2024-05-01", "09:30"⟩ := rfl

/-! ### Booking email validation (`src/database/booking.model.ts`) -/

/-- The character class `[^\s@]` of `emailRegex`. -/
def isEmailChar (c : Char) : Bool :=
  !jsWhitespace c && c ≠ '@'

/-- `dotNotLast l` holds when `l` contains a `'.'` that is not its last
character (helper for the `[^\s@]+\.[^\s@]+` part of the regex). -/
def dotNotLast : List Char → Bool
  | [] => false
  | c :: rest => (c = '.' && !rest.isEmpty) || dotNotLast rest

/-- `emailRegex.test`: the regex `^[^\s@]+@[^\s@]+\.[^\s@]+$`.  Because
every class excludes `@`, a match splits the string at its unique `@`;
the part before must be a non-empty `[^\s@]+`, and the part after must
be non-empty, all `[^\s@]`, and contain an interior `'.'` (a dot that is
neither its first nor its last character). -/
def emailMatch (s : String) : Bool :=
  let l := s.data.takeWhile (fun c => c ≠ '@')
  match s.data.dropWhile (fun c => c ≠ '@') with
  | '@' :: m =>
    !l.isEmpty && l.all isEmailChar && m.all isEmailChar &&
      (match m with
       | [] => false
       | _ :: rest => dotNotLast rest)
  | _ => false

/-- The `email` path of `bookingSchema`: the `trim` and `lowercase`
setters run on assignment, then the validator tests `emailRegex` on the
stored value; a failing validator rejects the save with the message
`"Invalid email address."`. -/
def bookingSaveEmail (input : String) : Except String String :=
  let stored := ⟨(jsTrim input).data.map jsToLower⟩
  if emailMatch stored then .ok stored
  else .error "Invalid email address."

example : bookingSaveEmail "a@b.com" = .ok "a@b.com" := rfl
example : bookingSaveEmail "A@B.COM" = .ok "a@b.com" := rfl
example : bookingSaveEmail "not-an-email" = .error "Invalid email address." := rfl
example : bookingSaveEmail " User@Example.ORG " = .ok "user@example.org" := rfl

/-- The denotation of `emailRegex`'s language, written as the
specification reads it: a non-empty local part, an `@`, and a domain
containing a dot that separates two non-empty parts, with every
character outside the separators drawn from `[^\s@]`. -/
def EmailShape (s : String) : Prop :=
  ∃ l a b : List Char,
    s.data = l ++ '@' :: (a ++ '.' :: b) ∧
    l ≠ [] ∧ a ≠ [] ∧ b ≠ [] ∧
    ∀ c ∈ l ++ a ++ b, isEmailChar c = true

/-! ### Booking pre-save hook (`bookingSchema.pre('save')`) -/

/-- The error message the hook reports when the referenced event is
missing — the repository's distinct `ReferenceNotFound` failure, told
apart from field-validation failures by this dedicated message. -/
def referenceNotFoundMsg : String :=
  "Cannot create booking: referenced event does not exist."

/-- The `bookingSchema.pre('save')` hook: when `eventId` is not
modified, skip the check and continue; otherwise look the id up in the
event store (`EventModel.exists`) and reject the save when absent.
Event identities are abstracted as naturals and the store as the list
of existing event ids. -/
def bookingPreSave (events : List Nat) (eventIdModified : Bool)
    (eventId : Nat) : Except String Unit :=
  if !eventIdModified then .ok ()
  else if events.contains eventId then .ok ()
  else .error referenceNotFoundMsg

example : bookingPreSave [1, 2] true 3 = .error referenceNotFoundMsg := rfl
example : bookingPreSave [1, 2] true 2 = .ok () := rfl
example : bookingPreSave [] false 3 = .ok () := rfl

/-! ### Connection manager (`connectToDatabase`) -/

/-- The module-level cache: `conn` holds the resolved connection once
connected, `promise` the in-flight connection attempt. -/
structure ConnCache (Conn Attempt : Type) where
  conn : Option Conn
  promise : Option Attempt
deriving DecidableEq, Repr

/-- Outcome of the synchronous prefix of `connectToDatabase` (the code
up to its single `await`): either a cached connection returned
immediately, or the attempt this caller will await. -/
inductive SyncStep (Conn Attempt : Type) where
  | cached (c : Conn)
  | awaits (a : Attempt)
deriving DecidableEq, Repr

/-- The synchronous prefix of `connectToDatabase`: return the cached
connection if present; otherwise reuse the recorded in-flight attempt,
or record and use the fresh attempt `fresh` (the `mongoose.connect`
call this caller would start). -/
def connectSyncPhase {Conn Attempt : Type} (st : ConnCache Conn Attempt)
    (fresh : Attempt) : ConnCache Conn Attempt × SyncStep Conn Attempt :=
  match st.conn with
  | some c => (st, .cached c)
  | none =>
    match st.promise with
    | some a => (st, .awaits a)
    | none => ({ st with promise := some fresh }, .awaits fresh)

/-- The continuation of `connectToDatabase` after its `await`: on
success store the resolved connection and return it; on failure clear
the in-flight attempt and propagate the error. -/
def connectResumePhase {Conn Attempt Err : Type} (st : ConnCache Conn Attempt)
    (outcome : Except Err Conn) : ConnCache Conn Attempt × Except Err Conn :=
  match outcome with
  | .ok c => ({ st with conn := some c }, .ok c)
  | .error e => ({ st with promise := none }, .error e)

/-- One complete call of `connectToDatabase`, `outcome` giving the
eventual result of awaiting each possible attempt. -/
def connectToDatabase {Conn Attempt Err : Type} (st : ConnCache Conn Attempt)
    (fresh : Attempt) (outcome : Attempt → Except Err Conn) :
    ConnCache Conn Attempt × Except Err Conn :=
  match connectSyncPhase st fresh with
  | (st1, .cached c) => (st1, .ok c)
  | (st1, .awaits a) => connectResumePhase st1 (outcome a)

example :
    (connectToDatabase ⟨none, none⟩ 7 (fun a => .ok a) :
      ConnCache Nat Nat × Except String Nat) = (⟨some 7, some 7⟩, .ok 7) := rfl
example :
    connectToDatabase ⟨none, none⟩ 7 (fun _ => .error "down") =
      ((⟨none, none⟩ : ConnCache Nat Nat), .error "down") := rfl
example :
    (connectToDatabase ⟨some 5, none⟩ 7 (fun a => .ok a) :
      ConnCache Nat Nat × Except String Nat) = (⟨some 5, none⟩, .ok 5) := rfl

/-! ### Auxiliary definitions used by the statements and invariants -/

/-- Numeric value of a list of digit characters read left to right
(the value `Number(...)` gives a digit-only capture group). -/
def digitsVal (l : List Char) : Nat :=
  l.foldl (fun acc c => 10 * acc + digitVal c) 0

/-- The denotation of the `^(\d{1,2}):(\d{2})$` pattern, written the way
the specification reads it: a 1-or-2-digit hour, a colon, and an
exactly-2-digit minute, with `h` and `m` the parsed integer values. -/
def TimeShape (s : String) (h m : Nat) : Prop :=
  ∃ hd md : List Char,
    s.data = hd ++ ':' :: md ∧
    (hd.length = 1 ∨ hd.length = 2) ∧ md.length = 2 ∧
    (∀ c ∈ hd ++ md, c.isDigit = true) ∧
    h = digitsVal hd ∧ m = digitsVal md

/-- The run-tracking flag of `collapseRuns` after processing `m`,
starting from flag `b`: inside a non-alphanumeric run exactly when the
last character seen is not alphanumeric. -/
def flagAfter (b : Bool) (m : List Char) : Bool :=
  m.foldl (fun _ c => !isSlugChar c) b

/-- Well-formedness of collapsed character lists: every character is
either kept (`[a-z0-9]`) or a hyphen, and every hyphen is followed by a
kept character or the end of the list. -/
def collOK : List Char → Bool
  | [] => true
  | c :: rest =>
    (if c = '-' then
      match rest.head? with
      | none => true
      | some d => isSlugChar d
     else isSlugChar c) && collOK rest

/-! ### Character-level facts -/

theorem isSlugChar_ne_hyphen {c : Char} (h : isSlugChar c = true) : c ≠ '-' := by
  intro he
  rw [he] at h
  exact absurd h (by decide)

theorem jsToLower_fixed {c : Char} (h : ¬(65 ≤ c.toNat ∧ c.toNat ≤ 90)) :
    jsToLower c = c := if_neg h

theorem ws_jsToLower {c : Char} (h : jsWhitespace c = true) : jsToLower c = c := by
  apply jsToLower_fixed
  simp only [jsWhitespace, Bool.or_eq_true, decide_eq_true_eq] at h
  omega

theorem ws_not_slugChar {c : Char} (h : jsWhitespace c = true) :
    isSlugChar c = false := by
  simp only [jsWhitespace, Bool.or_eq_true, decide_eq_true_eq] at h
  simp only [isSlugChar, Bool.or_eq_false_iff, Bool.and_eq_false_iff,
    decide_eq_false_iff_not]
  omega

theorem slug_or_hyphen_jsToLower {c : Char} (h : isSlugChar c = true ∨ c = '-') :
    jsToLower c = c := by
  apply jsToLower_fixed
  rcases h with h | rfl
  · simp only [isSlugChar, Bool.or_eq_true, Bool.and_eq_true, decide_eq_true_eq] at h
    omega
  · decide

theorem slug_or_hyphen_not_ws {c : Char} (h : isSlugChar c = true ∨ c = '-') :
    jsWhitespace c = false := by
  rcases h with h | rfl
  · simp only [isSlugChar, Bool.or_eq_true, Bool.and_eq_true, decide_eq_true_eq] at h
    simp only [jsWhitespace, Bool.or_eq_false_iff, decide_eq_false_iff_not]
    omega
  · decide

/-! ### Generic list helpers -/

theorem dropWhile_eq_self_of_neg {p : Char → Bool} {l : List Char}
    (h : ∀ c ∈ l, p c = false) : l.dropWhile p = l := by
  cases l with
  | nil => rfl
  | cons c t => exact List.dropWhile_cons_of_neg (by simp [h c (by simp)])

theorem dropTrailing_eq_self_of_neg {p : Char → Bool} {l : List Char}
    (h : ∀ c ∈ l, p c = false) : dropTrailing p l = l := by
  unfold dropTrailing
  rw [dropWhile_eq_self_of_neg (fun c hc => h c (List.mem_reverse.mp hc)),
    List.reverse_reverse]

theorem trimChars_eq_self_of_neg {l : List Char}
    (h : ∀ c ∈ l, jsWhitespace c = false) : trimChars l = l := by
  unfold trimChars
  rw [dropWhile_eq_self_of_neg h, dropTrailing_eq_self_of_neg h]

theorem map_eq_self_of_fixed {f : Char → Char} {l : List Char}
    (h : ∀ c ∈ l, f c = c) : l.map f = l := by
  induction l with
  | nil => rfl
  | cons c t ih =>
    simp only [List.map_cons, h c (by simp), List.cons.injEq, true_and]
    exact ih fun d hd => h d (by simp [hd])

theorem dropTrailing_decomp (p : Char → Bool) (l : List Char) :
    ∃ w, l = dropTrailing p l ++ w ∧ ∀ c ∈ w, p c = true := by
  refine ⟨(l.reverse.takeWhile p).reverse, ?_, ?_⟩
  · show l = (l.reverse.dropWhile p).reverse ++ (l.reverse.takeWhile p).reverse
    rw [← List.reverse_append, List.takeWhile_append_dropWhile, List.reverse_reverse]
  · intro c hc
    exact List.mem_takeWhile_imp (List.mem_reverse.mp hc)

theorem dropTrailing_append_single {p : Char → Bool} {x : Char} (hx : p x = true)
    (l : List Char) : dropTrailing p (l ++ [x]) = dropTrailing p l := by
  unfold dropTrailing
  rw [List.reverse_append]
  simp [List.dropWhile_cons, hx]

theorem mem_dropTrailing {p : Char → Bool} {l : List Char} {c : Char}
    (h : c ∈ dropTrailing p l) : c ∈ l := by
  obtain ⟨w, hw, -⟩ := dropTrailing_decomp p l
  rw [hw]
  exact List.mem_append_left _ h

theorem mem_stripHyphens {l : List Char} {c : Char}
    (h : c ∈ stripHyphens l) : c ∈ l := by
  have h1 : c ∈ l.dropWhile (fun c => c = '-') := mem_dropTrailing h
  have := List.takeWhile_append_dropWhile (fun c => (c = '-' : Bool)) l
  rw [← this]
  exact List.mem_append_right _ h1

theorem dropWhile_idem (p : Char → Bool) (l : List Char) :
    (l.dropWhile p).dropWhile p = l.dropWhile p := by
  cases h : l.dropWhile p with
  | nil => rfl
  | cons c t =>
    have hc := List.head?_dropWhile_not p l
    rw [h] at hc
    simp only [List.head?_cons] at hc
    exact List.dropWhile_cons_of_neg (by simp [hc])

/-! ### `collapseRuns` invariants -/

theorem collapseRuns_append (m : List Char) : ∀ (b : Bool) (w : List Char),
    collapseRuns b (m ++ w) = collapseRuns b m ++ collapseRuns (flagAfter b m) w := by
  induction m with
  | nil => intro b w; rfl
  | cons c m' ih =>
    intro b w
    by_cases hc : isSlugChar c = true
    · simp [collapseRuns, hc, ih false w, flagAfter]
    · rw [Bool.not_eq_true] at hc
      cases b with
      | true => simp [collapseRuns, hc, ih true w, flagAfter]
      | false => simp [collapseRuns, hc, ih true w, flagAfter]

theorem collapseRuns_true_of_all {w : List Char}
    (h : ∀ c ∈ w, isSlugChar c = false) : collapseRuns true w = [] := by
  induction w with
  | nil => rfl
  | cons c w' ih =>
    simp only [collapseRuns, h c (by simp), if_true, if_false]
    exact ih fun d hd => h d (by simp [hd])

theorem collapseRuns_false_of_all {w : List Char}
    (h : ∀ c ∈ w, isSlugChar c = false) :
    collapseRuns false w = if w.isEmpty then [] else ['-'] := by
  cases w with
  | nil => rfl
  | cons c w' =>
    simp [collapseRuns, h c (by simp),
      collapseRuns_true_of_all fun d hd => h d (List.mem_cons_of_mem _ hd)]

theorem flagAfter_of_all {w : List Char} (hw : w ≠ [])
    (h : ∀ c ∈ w, isSlugChar c = false) (b : Bool) : flagAfter b w = true := by
  induction w generalizing b with
  | nil => exact absurd rfl hw
  | cons c w' ih =>
    unfold flagAfter
    rw [List.foldl_cons]
    cases w' with
    | nil => simp [h c (by simp)]
    | cons d w'' =>
      exact ih (by simp) (fun d hd => h d (by simp [hd])) _

theorem mem_collapseRuns_charset : ∀ (b : Bool) (l : List Char) (c : Char),
    c ∈ collapseRuns b l → isSlugChar c = true ∨ c = '-' := by
  intro b l
  induction l generalizing b with
  | nil => intro c hc; simp [collapseRuns] at hc
  | cons d l' ih =>
    intro c hc
    by_cases hd : isSlugChar d = true
    · simp only [collapseRuns, hd, if_true, List.mem_cons] at hc
      rcases hc with hc | hc
      · subst hc; exact Or.inl hd
      · exact ih false c hc
    · rw [Bool.not_eq_true] at hd
      cases b with
      | true =>
        simp [collapseRuns, hd] at hc
        exact ih true c hc
      | false =>
        simp [collapseRuns, hd] at hc
        rcases hc with hc | hc
        · exact Or.inr hc
        · exact ih true c hc

theorem collapseRuns_true_head : ∀ (l : List Char) (c : Char),
    (collapseRuns true l).head? = some c → isSlugChar c = true := by
  intro l
  induction l with
  | nil => intro c hc; simp [collapseRuns] at hc
  | cons d l' ih =>
    intro c hc
    by_cases hd : isSlugChar d = true
    · simp only [collapseRuns, hd, if_true, List.head?_cons, Option.some.injEq] at hc
      rw [← hc]; exact hd
    · rw [Bool.not_eq_true] at hd
      simp [collapseRuns, hd] at hc
      exact ih c hc

theorem collOK_hyphen_cons {rest : List Char}
    (h : ∀ c, rest.head? = some c → isSlugChar c = true)
    (hrest : collOK rest = true) : collOK ('-' :: rest) = true := by
  simp only [collOK, if_pos rfl, Bool.and_eq_true]
  refine ⟨?_, hrest⟩
  cases rest with
  | nil => rfl
  | cons d t => exact h d rfl

theorem collOK_collapseRuns : ∀ (l : List Char) (b : Bool),
    collOK (collapseRuns b l) = true := by
  intro l
  induction l with
  | nil => intro b; rfl
  | cons c l' ih =>
    intro b
    by_cases hc : isSlugChar c = true
    · simp only [collapseRuns, hc, if_true, collOK,
        if_neg (isSlugChar_ne_hyphen hc), hc, Bool.true_and]
      exact ih false
    · rw [Bool.not_eq_true] at hc
      cases b with
      | true => simpa [collapseRuns, hc] using ih true
      | false =>
        have heq : collapseRuns false (c :: l') = '-' :: collapseRuns true l' := by
          simp [collapseRuns, hc]
        rw [heq]
        exact collOK_hyphen_cons (collapseRuns_true_head l') (ih true)

theorem collOK_tail {c : Char} {rest : List Char}
    (h : collOK (c :: rest) = true) : collOK rest = true := by
  simp only [collOK, Bool.and_eq_true] at h
  exact h.2

theorem collOK_append_left : ∀ {A B : List Char},
    collOK (A ++ B) = true → collOK A = true := by
  intro A
  induction A with
  | nil => intro B _; rfl
  | cons c A' ih =>
    intro B h
    rw [List.cons_append] at h
    have h2 := collOK_tail h
    simp only [collOK, Bool.and_eq_true] at h ⊢
    refine ⟨?_, ih h2⟩
    rcases h with ⟨h1, -⟩
    by_cases hch : c = '-'
    · rw [if_pos hch] at h1 ⊢
      cases A' with
      | nil => rfl
      | cons d A'' => simpa using h1
    · rw [if_neg hch] at h1 ⊢
      exact h1

theorem collOK_dropWhile (p : Char → Bool) : ∀ {l : List Char},
    collOK l = true → collOK (l.dropWhile p) = true := by
  intro l
  induction l with
  | nil => intro h; exact h
  | cons c t ih =>
    intro h
    by_cases hp : p c = true
    · rw [List.dropWhile_cons_of_pos hp]
      exact ih (collOK_tail h)
    · rw [List.dropWhile_cons_of_neg (by simpa using hp)]
      exact h

theorem collOK_dropTrailing (p : Char → Bool) {l : List Char}
    (h : collOK l = true) : collOK (dropTrailing p l) = true := by
  obtain ⟨w, hw, -⟩ := dropTrailing_decomp p l
  rw [hw] at h
  exact collOK_append_left h

theorem collOK_stripHyphens {l : List Char} (h : collOK l = true) :
    collOK (stripHyphens l) = true :=
  collOK_dropTrailing _ (collOK_dropWhile _ h)

theorem collapseRuns_fixpoint : ∀ {l : List Char}, collOK l = true →
    collapseRuns false l = l ∧
    ((∀ c, l.head? = some c → isSlugChar c = true) → collapseRuns true l = l) := by
  intro l
  induction l with
  | nil => intro _; exact ⟨rfl, fun _ => rfl⟩
  | cons c rest ih =>
    intro h
    have hrest := collOK_tail h
    simp only [collOK, Bool.and_eq_true] at h
    rcases h with ⟨h1, -⟩
    by_cases hc : isSlugChar c = true
    · have hfix : collapseRuns false rest = rest := (ih hrest).1
      constructor
      · simp [collapseRuns, hc, hfix]
      · intro _; simp [collapseRuns, hc, hfix]
    · rw [Bool.not_eq_true] at hc
      by_cases hch : c = '-'
      · subst hch
        rw [if_pos rfl] at h1
        have hhead : ∀ d, rest.head? = some d → isSlugChar d = true := by
          intro d hd
          cases rest with
          | nil => simp at hd
          | cons e t =>
            simp only [List.head?_cons, Option.some.injEq] at hd
            subst hd
            simpa using h1
        have htrue : collapseRuns true rest = rest := (ih hrest).2 hhead
        constructor
        · simp [collapseRuns, hc, htrue]
        · intro hx
          exact absurd (hx '-' rfl) (by decide)
      · rw [if_neg hch] at h1
        rw [hc] at h1
        cases h1

theorem stripHyphens_cons_hyphen (l : List Char) :
    stripHyphens ('-' :: l) = stripHyphens l := by
  unfold stripHyphens
  rw [List.dropWhile_cons_of_pos (by decide)]

theorem stripHyphens_append_hyphen (l : List Char) :
    stripHyphens (l ++ ['-']) = stripHyphens l := by
  unfold stripHyphens
  by_cases h : l.dropWhile (fun c => (c = '-' : Bool)) = []
  · have hall : ∀ c ∈ l, (c = '-' : Bool) = true := List.dropWhile_eq_nil_iff.mp h
    rw [h, List.dropWhile_append_of_pos hall]
    rw [show List.dropWhile (fun c => (c = '-' : Bool)) ['-'] = [] from rfl]
  · rw [List.dropWhile_append]
    rw [if_neg (by simpa using h)]
    exact dropTrailing_append_single (by decide) _

theorem strip_strip_general (p : Char → Bool) (X : List Char) :
    dropTrailing p ((dropTrailing p (X.dropWhile p)).dropWhile p) =
      dropTrailing p (X.dropWhile p) := by
  have hrev : (dropTrailing p (X.dropWhile p)).reverse =
      (X.dropWhile p).reverse.dropWhile p := by
    unfold dropTrailing
    rw [List.reverse_reverse]
  have hstep : (dropTrailing p (X.dropWhile p)).dropWhile p =
      dropTrailing p (X.dropWhile p) := by
    cases hout : dropTrailing p (X.dropWhile p) with
    | nil => rfl
    | cons c t =>
      obtain ⟨w, hw, -⟩ := dropTrailing_decomp p (X.dropWhile p)
      have hY : (X.dropWhile p).head? = some c := by
        rw [hw, hout]; rfl
      have hnc := List.head?_dropWhile_not p X
      rw [hY] at hnc
      exact List.dropWhile_cons_of_neg (by simpa using hnc)
  rw [hstep]
  show ((dropTrailing p (X.dropWhile p)).reverse.dropWhile p).reverse = _
  rw [hrev, dropWhile_idem, ← hrev, List.reverse_reverse]

theorem stripHyphens_idem (X : List Char) :
    stripHyphens (stripHyphens X) = stripHyphens X := by
  unfold stripHyphens
  exact strip_strip_general _ X

theorem collapseRuns_true_skip {w : List Char}
    (hw : ∀ c ∈ w, isSlugChar c = false) (r : List Char) :
    collapseRuns true (w ++ r) = collapseRuns true r := by
  induction w with
  | nil => rfl
  | cons c w' ih =>
    rw [List.cons_append]
    simp only [collapseRuns, hw c (by simp), if_true, if_false]
    exact ih fun d hd => hw d (by simp [hd])

theorem strip_collapse_cons_hyphen_true (r : List Char) :
    stripHyphens ('-' :: collapseRuns true r) =
      stripHyphens (collapseRuns false r) := by
  cases r with
  | nil => rfl
  | cons c r' =>
    by_cases hc : isSlugChar c = true
    · rw [show collapseRuns true (c :: r') = c :: collapseRuns false r' by
          simp [collapseRuns, hc],
        show collapseRuns false (c :: r') = c :: collapseRuns false r' by
          simp [collapseRuns, hc]]
      exact stripHyphens_cons_hyphen _
    · rw [Bool.not_eq_true] at hc
      rw [show collapseRuns true (c :: r') = collapseRuns true r' by
          simp [collapseRuns, hc],
        show collapseRuns false (c :: r') = '-' :: collapseRuns true r' by
          simp [collapseRuns, hc]]

theorem strip_collapse_ws_left {w : List Char}
    (hw : ∀ c ∈ w, isSlugChar c = false) (r : List Char) :
    stripHyphens (collapseRuns false (w ++ r)) =
      stripHyphens (collapseRuns false r) := by
  cases w with
  | nil => rfl
  | cons c w' =>
    rw [List.cons_append,
      show collapseRuns false (c :: (w' ++ r)) = '-' :: collapseRuns true (w' ++ r) by
        simp [collapseRuns, hw c (by simp)],
      collapseRuns_true_skip (fun d hd => hw d (by simp [hd]))]
    exact strip_collapse_cons_hyphen_true r

theorem strip_collapse_ws_right (m : List Char) {w : List Char}
    (hw : ∀ c ∈ w, isSlugChar c = false) (b : Bool) :
    stripHyphens (collapseRuns b (m ++ w)) = stripHyphens (collapseRuns b m) := by
  rw [collapseRuns_append]
  cases w with
  | nil => simp [collapseRuns]
  | cons c w' =>
    cases flagAfter b m with
    | true => rw [collapseRuns_true_of_all hw, List.append_nil]
    | false =>
      rw [collapseRuns_false_of_all hw]
      simp only [List.isEmpty_cons, if_false, Bool.false_eq_true]
      exact stripHyphens_append_hyphen _

theorem trimChars_decomp (l : List Char) :
    ∃ w₁ w₂, l = w₁ ++ trimChars l ++ w₂ ∧
      (∀ c ∈ w₁, jsWhitespace c = true) ∧ ∀ c ∈ w₂, jsWhitespace c = true := by
  obtain ⟨w₂, hw₂, hws₂⟩ := dropTrailing_decomp jsWhitespace (l.dropWhile jsWhitespace)
  refine ⟨l.takeWhile jsWhitespace, w₂, ?_, ?_, hws₂⟩
  · conv_lhs => rw [← List.takeWhile_append_dropWhile jsWhitespace l, hw₂]
    simp [trimChars, List.append_assoc]
  · intro c hc
    exact List.mem_takeWhile_imp hc

/-! ### Claims C3 and C5: `slugify` -/

/-- C3: for every title string, `slugify` equals the reference
definition `slugifySpec` (the title lower-cased, every run of
non-alphanumeric characters replaced by a single hyphen, leading and
trailing hyphens removed); being a Lean function of the title alone, it
is in particular deterministic and pure. -/
theorem slugify_matches_reference (title : String) :
    slugify title = slugifySpec title := by
  obtain ⟨w₁, w₂, hdec, hws₁, hws₂⟩ := trimChars_decomp title.data
  unfold slugify slugifySpec
  refine congrArg String.mk ?_
  conv_rhs => rw [hdec]
  rw [List.map_append, List.map_append,
    map_eq_self_of_fixed fun c hc => ws_jsToLower (hws₁ c hc),
    map_eq_self_of_fixed fun c hc => ws_jsToLower (hws₂ c hc),
    strip_collapse_ws_right _ (fun c hc => ws_not_slugChar (hws₂ c hc)),
    strip_collapse_ws_left (fun c hc => ws_not_slugChar (hws₁ c hc))]

/-- C5: `slugify` is idempotent — re-slugifying a slug returns it
unchanged. -/
theorem slugify_idempotent (title : String) :
    slugify (slugify title) = slugify title := by
  have key : ∀ l : List Char,
      slugify ⟨stripHyphens (collapseRuns false l)⟩ =
        ⟨stripHyphens (collapseRuns false l)⟩ := by
    intro l
    have hchar : ∀ c ∈ stripHyphens (collapseRuns false l),
        isSlugChar c = true ∨ c = '-' :=
      fun c hc => mem_collapseRuns_charset false l c (mem_stripHyphens hc)
    unfold slugify
    refine congrArg String.mk ?_
    show stripHyphens (collapseRuns false
      ((trimChars (stripHyphens (collapseRuns false l))).map jsToLower)) = _
    rw [trimChars_eq_self_of_neg fun c hc => slug_or_hyphen_not_ws (hchar c hc),
      map_eq_self_of_fixed fun c hc => slug_or_hyphen_jsToLower (hchar c hc),
      (collapseRuns_fixpoint (collOK_stripHyphens (collOK_collapseRuns l false))).1,
      stripHyphens_idem]
  exact key ((trimChars title.data).map jsToLower)

/-! ### Claims C1 and C10: date normalization -/

theorem isoDatePattern_ne_empty {t : String} (h : isoDatePattern t = true) :
    t ≠ "" := by
  intro he
  rw [he] at h
  exact absurd h (by decide)

/-- C1: date normalization passes trimmed `YYYY-MM-DD` inputs through
unchanged, fails on empty or unparsable input, and otherwise returns
the UTC calendar date produced by general date parsing; in particular
`"2024-05-01"` maps to itself and (with the engine parsing
`"May 1, 2024"` to the UTC date 2024-05-01) `"May 1, 2024"` maps to
`"2024-05-01"`, while `""` and `"not-a-date"` fail. -/
theorem normalizeDate_spec (env : JsDateEnv) (s : String) :
    (jsTrim s = "" → ∃ e, normalizeDate env s = .error e) ∧
    (isoDatePattern (jsTrim s) = true → normalizeDate env s = .ok (jsTrim s)) ∧
    (isoDatePattern (jsTrim s) = false → env.parseToUtcDate (jsTrim s) = none →
      ∃ e, normalizeDate env s = .error e) ∧
    (∀ d, jsTrim s ≠ "" → isoDatePattern (jsTrim s) = false →
      env.parseToUtcDate (jsTrim s) = some d → normalizeDate env s = .ok d) ∧
    normalizeDate env "2024-05-01" = .ok "2024-05-01" ∧
    (env.parseToUtcDate "May 1, 2024" = some "2024-05-01" →
      normalizeDate env "May 1, 2024" = .ok "2024-05-01") ∧
    (∃ e, normalizeDate env "" = .error e) ∧
    (env.parseToUtcDate "not-a-date" = none →
      ∃ e, normalizeDate env "not-a-date" = .error e) := by
  refine ⟨?_, ?_, ?_, ?_, ?_, ?_, ?_, ?_⟩
  · intro h
    exact ⟨"Date is required and cannot be empty.", by simp [normalizeDate, h]⟩
  · intro h
    simp [normalizeDate, isoDatePattern_ne_empty h, h]
  · intro h hp
    by_cases he : jsTrim s = ""
    · exact ⟨"Date is required and cannot be empty.", by simp [normalizeDate, he]⟩
    · exact ⟨"Invalid date format: \"" ++ s ++ "\".",
        by simp [normalizeDate, he, h, hp]⟩
  · intro d he h hp
    simp [normalizeDate, he, h, hp]
  · have : isoDatePattern (jsTrim "2024-05-01") = true := by decide
    simp [normalizeDate, isoDatePattern_ne_empty this, this]
    rfl
  · intro h
    have h1 : jsTrim "May 1, 2024" = "May 1, 2024" := by decide
    have h2 : isoDatePattern "May 1, 2024" = false := by decide
    have h3 : ("May 1, 2024" : String) ≠ "" := by decide
    simp [normalizeDate, h1, h2, h3, h]
  · exact ⟨"Date is required and cannot be empty.",
      by simp [normalizeDate, show jsTrim "" = "" by decide]⟩
  · intro h
    have h1 : jsTrim "not-a-date" = "not-a-date" := by decide
    have h2 : isoDatePattern "not-a-date" = false := by decide
    have h3 : ("not-a-date" : String) ≠ "" := by decide
    exact ⟨"Invalid date format: \"not-a-date\".",
      by simp [normalizeDate, h1, h2, h3, h]⟩

theorem normalizeDate_spec_witness :
    normalizeDate mayDateEnv "May 1, 2024" = .ok "2024-05-01" :=
  (normalizeDate_spec mayDateEnv "May 1, 2024").2.2.2.2.2.1 (by decide)

/-- C10: every input whose trimmed form matches the
digits-hyphen-digits-hyphen-digits pattern is accepted as-is, with no
calendar-validity check and without consulting the date engine; in
particular `"2024-13-99"` is returned unchanged under every engine. -/
theorem normalizeDate_pattern_passthrough (env : JsDateEnv) (s : String) :
    (isoDatePattern (jsTrim s) = true → normalizeDate env s = .ok (jsTrim s)) ∧
    normalizeDate env "2024-13-99" = .ok "2024-13-99" := by
  constructor
  · intro h
    simp [normalizeDate, isoDatePattern_ne_empty h, h]
  · have h : isoDatePattern (jsTrim "2024-13-99") = true := by decide
    simp [normalizeDate, isoDatePattern_ne_empty h, h]
    rfl

theorem normalizeDate_pattern_passthrough_witness :
    normalizeDate nullDateEnv "2024-13-99" = .ok (jsTrim "2024-13-99") :=
  (normalizeDate_pattern_passthrough nullDateEnv "2024-13-99").1 (by decide)

/-! ### Claim C2: time normalization -/

theorem timeMatch_iff (s : String) (h m : Nat) :
    timeMatch s = some (h, m) ↔ TimeShape s h m := by
  constructor
  · intro hm
    unfold timeMatch at hm
    split at hm
    · rename_i h1 m1 m2 heq
      split at hm
      · rename_i hdig
        simp only [Option.some.injEq, Prod.mk.injEq] at hm
        obtain ⟨hh, hmm⟩ := hm
        simp only [Bool.and_eq_true] at hdig
        refine ⟨[h1], [m1, m2], by simp [heq], Or.inl rfl, rfl, ?_, ?_, ?_⟩
        · intro c hc
          simp only [List.cons_append, List.nil_append, List.mem_cons,
            List.not_mem_nil, or_false] at hc
          rcases hc with rfl | rfl | rfl
          · exact hdig.1.1
          · exact hdig.1.2
          · exact hdig.2
        · rw [← hh]; simp [digitsVal]
        · rw [← hmm]; simp [digitsVal]
      · cases hm
    · rename_i h1 h2 m1 m2 heq
      split at hm
      · rename_i hdig
        simp only [Option.some.injEq, Prod.mk.injEq] at hm
        obtain ⟨hh, hmm⟩ := hm
        simp only [Bool.and_eq_true] at hdig
        refine ⟨[h1, h2], [m1, m2], by simp [heq], Or.inr rfl, rfl, ?_, ?_, ?_⟩
        · intro c hc
          simp only [List.cons_append, List.nil_append, List.mem_cons,
            List.not_mem_nil, or_false] at hc
          rcases hc with rfl | rfl | rfl | rfl
          · exact hdig.1.1.1
          · exact hdig.1.1.2
          · exact hdig.1.2
          · exact hdig.2
        · rw [← hh]; simp [digitsVal]
        · rw [← hmm]; simp [digitsVal]
      · cases hm
    · cases hm
  · rintro ⟨hd, md, heq, hlen1, hlen2, hdig, hh, hmm⟩
    obtain ⟨b, c, rfl⟩ := List.length_eq_two.mp hlen2
    rcases hlen1 with hlen1 | hlen1
    · obtain ⟨a, rfl⟩ := List.length_eq_one.mp hlen1
      have hda : a.isDigit = true := hdig a (by simp)
      have hdb : b.isDigit = true := hdig b (by simp)
      have hdc : c.isDigit = true := hdig c (by simp)
      unfold timeMatch
      rw [heq]
      simp only [List.cons_append, List.nil_append]
      simp [hda, hdb, hdc, hh, hmm, digitsVal]
    · obtain ⟨a, a2, rfl⟩ := List.length_eq_two.mp hlen1
      have hda : a.isDigit = true := hdig a (by simp)
      have hda2 : a2.isDigit = true := hdig a2 (by simp)
      have hdb : b.isDigit = true := hdig b (by simp)
      have hdc : c.isDigit = true := hdig c (by simp)
      unfold timeMatch
      rw [heq]
      simp only [List.cons_append, List.nil_append]
      simp [hda, hda2, hdb, hdc, hh, hmm, digitsVal]

/-- C2: time normalization succeeds exactly on trimmed inputs matching
a 1-or-2-digit hour, a colon and an exactly-2-digit minute with hour in
[0,23] and minute in [0,59], returning the zero-padded `HH:mm`; all
other inputs fail.  In particular `"09:05"` and `"23:59"` pass through
while `"9:5"`, `"24:00"` and `"12:60"` fail. -/
theorem normalizeTime_spec (s : String) :
    (∀ h m, TimeShape (jsTrim s) h m → h ≤ 23 → m ≤ 59 →
      normalizeTime s = .ok (pad2 h ++ ":" ++ pad2 m)) ∧
    ((¬ ∃ h m, TimeShape (jsTrim s) h m ∧ h ≤ 23 ∧ m ≤ 59) →
      ∃ e, normalizeTime s = .error e) ∧
    normalizeTime "09:05" = .ok "09:05" ∧
    normalizeTime "23:59" = .ok "23:59" ∧
    (∃ e, normalizeTime "9:5" = .error e) ∧
    (∃ e, normalizeTime "24:00" = .error e) ∧
    (∃ e, normalizeTime "12:60" = .error e) := by
  refine ⟨?_, ?_, rfl, rfl, ⟨_, rfl⟩, ⟨_, rfl⟩, ⟨_, rfl⟩⟩
  · intro h m hts hh hm
    have htm : timeMatch (jsTrim s) = some (h, m) := (timeMatch_iff _ h m).mpr hts
    obtain ⟨hd, md, heq, -, -, -, -, -⟩ := hts
    have hne : jsTrim s ≠ "" := by
      intro hcon
      rw [hcon] at heq
      simp at heq
    simp [normalizeTime, hne, htm, Nat.not_lt.mpr hh, Nat.not_lt.mpr hm]
  · intro hno
    by_cases he : jsTrim s = ""
    · exact ⟨"Time is required and cannot be empty.", by simp [normalizeTime, he]⟩
    · cases htm : timeMatch (jsTrim s) with
      | none =>
        exact ⟨"Invalid time format (expected HH:mm): \"" ++ s ++ "\".",
          by simp [normalizeTime, he, htm]⟩
      | some hm =>
        obtain ⟨h, m⟩ := hm
        have hts := (timeMatch_iff (jsTrim s) h m).mp htm
        by_cases hr : h ≤ 23 ∧ m ≤ 59
        · exact absurd ⟨h, m, hts, hr.1, hr.2⟩ hno
        · have hout : 23 < h ∨ 59 < m := by omega
          refine ⟨"Invalid time value: \"" ++ s ++ "\".", ?_⟩
          rcases hout with hout | hout
          · simp [normalizeTime, he, htm, hout]
          · simp [normalizeTime, he, htm, hout]

theorem normalizeTime_spec_witness :
    normalizeTime " 9:30 " = .ok (pad2 9 ++ ":" ++ pad2 30) :=
  (normalizeTime_spec " 9:30 ").1 9 30
    ⟨['9'], ['3', '0'], by decide, Or.inl rfl, rfl, by decide, by decide, by decide⟩
    (by decide) (by decide)

/-! ### Claim C6: event pre-save frame conditions -/

/-- C6: on every event save, `slug` is recomputed from the title exactly
when `title` is modified and kept unchanged otherwise, while `date` and
`time` are re-normalized regardless of their own modified flags (the
hook never consults them). -/
theorem eventPreSave_frame (env : JsDateEnv) (m₁ m₂ : ModifiedPaths)
    (doc : EventDoc) :
    (m₁.title = m₂.title → eventPreSave env m₁ doc = eventPreSave env m₂ doc) ∧
    (∀ d', eventPreSave env m₁ doc = .ok d' →
      d'.title = doc.title ∧
      d'.slug = (if m₁.title then slugify doc.title else doc.slug) ∧
      normalizeDate env doc.date = .ok d'.date ∧
      normalizeTime doc.time = .ok d'.time) := by
  constructor
  · intro h
    unfold eventPreSave
    rw [h]
  · intro d' hd
    unfold eventPreSave at hd
    cases hmt : m₁.title with
    | true =>
      rw [hmt] at hd
      simp only [if_true] at hd
      cases hnd : normalizeDate env doc.date with
      | error e => rw [hnd] at hd; cases hd
      | ok dv =>
        rw [hnd] at hd
        cases hnt : normalizeTime doc.time with
        | error e => rw [hnt] at hd; cases hd
        | ok tv =>
          rw [hnt] at hd
          simp only [Except.ok.injEq] at hd
          subst hd
          simp
    | false =>
      rw [hmt] at hd
      simp only [if_false, Bool.false_eq_true] at hd
      cases hnd : normalizeDate env doc.date with
      | error e => rw [hnd] at hd; cases hd
      | ok dv =>
        rw [hnd] at hd
        cases hnt : normalizeTime doc.time with
        | error e => rw [hnt] at hd; cases hd
        | ok tv =>
          rw [hnt] at hd
          simp only [Except.ok.injEq] at hd
          subst hd
          simp

theorem eventPreSave_frame_witness :
    let doc : EventDoc := ⟨"My Event!", "old-slug", "2024-05-01", "9:30"⟩
    eventPreSave nullDateEnv ⟨false, true, true⟩ doc =
      eventPreSave nullDateEnv ⟨false, false, false⟩ doc :=
  (eventPreSave_frame nullDateEnv ⟨false, true, true⟩ ⟨false, false, false⟩
    ⟨"My Event!", "old-slug", "2024-05-01", "9:30"⟩).1 rfl

/-! ### Claim C4: booking referential-existence check -/

/-- C4: saving a booking fails with the dedicated reference-not-found
error exactly when `eventId` is newly assigned or changed and the
referenced event is absent from storage; when `eventId` is unchanged
the existence check is skipped entirely, so the save succeeds whatever
the current event store contains (in particular after the referenced
event was deleted). -/
theorem bookingPreSave_reference_check (events : List Nat) (modified : Bool)
    (id : Nat) :
    (bookingPreSave events modified id = .error referenceNotFoundMsg ↔
      modified = true ∧ events.contains id = false) ∧
    (modified = false → bookingPreSave events modified id = .ok ()) := by
  unfold bookingPreSave
  cases modified with
  | false => simp
  | true =>
    cases hc : events.contains id with
    | true => simp [hc]
    | false => simp [hc]

theorem bookingPreSave_reference_check_witness :
    bookingPreSave [] false 3 = .ok () ∧
    (bookingPreSave [1, 2] true 3 = .error referenceNotFoundMsg ↔
      true = true ∧ [1, 2].contains 3 = false) :=
  ⟨(bookingPreSave_reference_check [] false 3).2 rfl,
   (bookingPreSave_reference_check [1, 2] true 3).1⟩

/-! ### Claims C7 and C8: connection manager -/

/-- C7: when the awaited connection attempt fails, the in-flight slot is
cleared (so a subsequent call starts and records a fresh attempt), the
failure is propagated to the caller, and the resolved-connection slot
is left exactly as it was — never set by a failure. -/
theorem connectResumePhase_failure {Conn Attempt Err : Type}
    (st : ConnCache Conn Attempt) (e : Err) :
    connectResumePhase st (.error e) = (⟨st.conn, none⟩, .error e) ∧
    (st.conn = none → ∀ (fresh : Attempt) (o : Attempt → Except Err Conn),
      connectToDatabase (connectResumePhase st (Except.error e)).1 fresh o =
        connectResumePhase ⟨none, some fresh⟩ (o fresh)) := by
  constructor
  · rfl
  · intro hc fresh o
    simp [connectResumePhase, connectToDatabase, connectSyncPhase, hc]

theorem connectResumePhase_failure_witness :
    connectToDatabase
        (connectResumePhase (⟨none, some 3⟩ : ConnCache Nat Nat)
          (Except.error "down")).1 7 (fun a => (.ok a : Except String Nat)) =
      connectResumePhase ⟨none, some 7⟩ (.ok 7) :=
  (connectResumePhase_failure (⟨none, some 3⟩ : ConnCache Nat Nat) "down").2
    rfl 7 (fun a => .ok a)

/-- C8: each `connectToDatabase` call returns a cached connection
immediately without touching the attempt slots; otherwise it awaits the
recorded in-flight attempt when one exists (ignoring its own fresh
attempt), or records and awaits exactly its fresh attempt when none
does; a successful await stores the connection, which every later call
then returns immediately. -/
theorem connectToDatabase_memoizes {Conn Attempt Err : Type}
    (st : ConnCache Conn Attempt) (fresh : Attempt)
    (o : Attempt → Except Err Conn) :
    (∀ c, st.conn = some c → connectToDatabase st fresh o = (st, .ok c)) ∧
    (∀ a, st.conn = none → st.promise = some a →
      connectSyncPhase st fresh = (st, .awaits a) ∧
      connectToDatabase st fresh o = connectResumePhase st (o a)) ∧
    (st.conn = none → st.promise = none →
      connectSyncPhase st fresh = ({ st with promise := some fresh }, .awaits fresh) ∧
      connectToDatabase st fresh o =
        connectResumePhase { st with promise := some fresh } (o fresh)) ∧
    (∀ (st' : ConnCache Conn Attempt) (a : Attempt) (c : Conn), o a = .ok c →
      connectResumePhase st' (o a) = (⟨some c, st'.promise⟩, .ok c)) := by
  refine ⟨?_, ?_, ?_, ?_⟩
  · intro c hc
    simp [connectToDatabase, connectSyncPhase, hc]
  · intro a hc hp
    constructor
    · simp [connectSyncPhase, hc, hp]
    · simp [connectToDatabase, connectSyncPhase, hc, hp]
  · intro hc hp
    constructor
    · simp [connectSyncPhase, hc, hp]
    · simp [connectToDatabase, connectSyncPhase, hc, hp]
  · intro st' a c ho
    simp [connectResumePhase, ho]

theorem connectToDatabase_memoizes_witness :
    connectToDatabase (⟨none, none⟩ : ConnCache Nat Nat) 7
        (fun a => (.ok a : Except String Nat)) =
      connectResumePhase (⟨none, some 7⟩ : ConnCache Nat Nat) (.ok 7) :=
  ((connectToDatabase_memoizes (⟨none, none⟩ : ConnCache Nat Nat) 7
    (fun a => .ok a)).2.2.1 rfl rfl).2

/-! ### Claim C9: booking email validation -/

theorem takeWhile_middle (p : Char → Bool) {l : List Char}
    (hl : ∀ c ∈ l, p c = true) (x : Char) (hx : p x = false) (r : List Char) :
    (l ++ x :: r).takeWhile p = l ∧ (l ++ x :: r).dropWhile p = x :: r := by
  induction l with
  | nil =>
    refine ⟨List.takeWhile_cons_of_neg (by simp [hx]),
      List.dropWhile_cons_of_neg (by simp [hx])⟩
  | cons c t ih =>
    obtain ⟨iht, ihd⟩ := ih fun d hd => hl d (by simp [hd])
    refine ⟨?_, ?_⟩
    · rw [List.cons_append, List.takeWhile_cons_of_pos (hl c (by simp)), iht]
    · rw [List.cons_append, List.dropWhile_cons_of_pos (hl c (by simp)), ihd]

theorem dotNotLast_iff (l : List Char) :
    dotNotLast l = true ↔ ∃ a b, l = a ++ '.' :: b ∧ b ≠ [] := by
  induction l with
  | nil =>
    simp only [dotNotLast, Bool.false_eq_true, false_iff, not_exists]
    intro a b h
    rcases h with ⟨h, -⟩
    exact absurd h.symm (List.append_ne_nil_of_right_ne_nil a (by simp))
  | cons c rest ih =>
    simp only [dotNotLast, Bool.or_eq_true, Bool.and_eq_true, decide_eq_true_eq]
    constructor
    · rintro (⟨rfl, hne⟩ | h)
      · refine ⟨[], rest, rfl, ?_⟩
        intro hr
        subst hr
        simp at hne
      · obtain ⟨a, b, heq, hb⟩ := ih.mp h
        exact ⟨c :: a, b, by rw [heq, List.cons_append], hb⟩
    · rintro ⟨a, b, heq, hb⟩
      cases a with
      | nil =>
        simp only [List.nil_append] at heq
        injection heq with h1 h2
        refine Or.inl ⟨h1, ?_⟩
        rw [h2]
        cases b with
        | nil => exact absurd rfl hb
        | cons x xs => rfl
      | cons a0 a' =>
        rw [List.cons_append] at heq
        injection heq with h1 h2
        exact Or.inr (ih.mpr ⟨a', b, h2, hb⟩)

theorem isEmailChar_ne_at {c : Char} (h : isEmailChar c = true) :
    (decide ¬(c = '@')) = true := by
  simp only [isEmailChar, Bool.and_eq_true] at h
  exact h.2

theorem emailMatch_iff (s : String) : emailMatch s = true ↔ EmailShape s := by
  constructor
  · intro hm
    simp only [emailMatch] at hm
    split at hm
    · rename_i m hdrop
      simp only [Bool.and_eq_true] at hm
      obtain ⟨⟨⟨hne, halll⟩, hallm⟩, hmatch⟩ := hm
      cases m with
      | nil => cases hmatch
      | cons c0 rest =>
        obtain ⟨a', b, hrest, hb⟩ := (dotNotLast_iff rest).mp hmatch
        refine ⟨s.data.takeWhile (fun c => decide ¬(c = '@')), c0 :: a', b,
          ?_, ?_, by simp, hb, ?_⟩
        · conv_lhs => rw [← List.takeWhile_append_dropWhile
            (fun c => decide ¬(c = '@')) s.data]
          rw [hdrop, hrest]
          simp
        · intro hcon
          rw [hcon] at hne
          simp at hne
        · intro c hc
          rcases List.mem_append.mp hc with hc1 | hcb
          · rcases List.mem_append.mp hc1 with hcl | hca
            · exact List.all_eq_true.mp halll c hcl
            · rcases List.mem_cons.mp hca with rfl | hca'
              · exact List.all_eq_true.mp hallm c (by simp)
              · exact List.all_eq_true.mp hallm c (by simp [hrest, hca'])
          · exact List.all_eq_true.mp hallm c
              (by simp [hrest, List.mem_append, hcb])
    · cases hm
  · rintro ⟨l, a, b, heq, hl, ha, hb, hchars⟩
    have hlchars : ∀ c ∈ l, (fun c => decide ¬(c = '@')) c = true := by
      intro c hc
      exact isEmailChar_ne_at (hchars c (by simp [hc]))
    obtain ⟨htw, hdw⟩ := takeWhile_middle (fun c => decide ¬(c = '@'))
      hlchars '@' (by decide) (a ++ '.' :: b)
    simp only [emailMatch, heq, htw, hdw]
    cases a with
    | nil => exact absurd rfl ha
    | cons a0 a'' =>
      rw [List.cons_append]
      simp only [Bool.and_eq_true]
      refine ⟨⟨⟨?_, ?_⟩, ?_⟩, ?_⟩
      · cases l with
        | nil => exact absurd rfl hl
        | cons x xs => rfl
      · exact List.all_eq_true.mpr fun c hc => hchars c (by simp [hc])
      · refine List.all_eq_true.mpr ?_
        intro c hc
        simp only [List.mem_cons, List.mem_append] at hc
        rcases hc with rfl | hc | rfl | hc
        · exact hchars c (by simp)
        · exact hchars c (by simp [hc])
        · decide
        · exact hchars c (by simp [hc])
      · exact (dotNotLast_iff (a'' ++ '.' :: b)).mpr ⟨a'', b, rfl, hb⟩

/-- C9: booking email validation succeeds exactly when the stored value
(the input trimmed and lower-cased by the schema setters) matches the
`local@domain` shape with a non-empty local part, a domain, and a
dot-separated suffix; on success that trimmed lower-cased value is what
is stored.  In particular `"a@b.com"` is stored unchanged, `"A@B.COM"`
is stored as `"a@b.com"`, and `"not-an-email"` fails. -/
theorem bookingSaveEmail_spec (s : String) :
    (∀ v, bookingSaveEmail s = .ok v → v = ⟨(jsTrim s).data.map jsToLower⟩) ∧
    ((∃ v, bookingSaveEmail s = .ok v) ↔
      EmailShape ⟨(jsTrim s).data.map jsToLower⟩) ∧
    (¬ EmailShape (⟨(jsTrim s).data.map jsToLower⟩ : String) →
      bookingSaveEmail s = .error "Invalid email address.") ∧
    bookingSaveEmail "a@b.com" = .ok "a@b.com" ∧
    bookingSaveEmail "A@B.COM" = .ok "a@b.com" ∧
    bookingSaveEmail "not-an-email" = .error "Invalid email address." := by
  refine ⟨?_, ?_, ?_, rfl, rfl, rfl⟩
  · intro v hv
    simp only [bookingSaveEmail] at hv
    split at hv
    · simp only [Except.ok.injEq] at hv
      exact hv.symm
    · cases hv
  · constructor
    · rintro ⟨v, hv⟩
      simp only [bookingSaveEmail] at hv
      split at hv
      · rename_i hm
        exact (emailMatch_iff _).mp hm
      · cases hv
    · intro hshape
      refine ⟨⟨(jsTrim s).data.map jsToLower⟩, ?_⟩
      simp only [bookingSaveEmail]
      rw [if_pos ((emailMatch_iff _).mpr hshape)]
  · intro hns
    simp only [bookingSaveEmail]
    rw [if_neg fun hm => hns ((emailMatch_iff _).mp hm)]

theorem bookingSaveEmail_spec_witness :
    ("a@b.com" : String) = ⟨(jsTrim "a@b.com").data.map jsToLower⟩ ∧
    bookingSaveEmail "A@B.COM" = .ok "a@b.com" :=
  ⟨(bookingSaveEmail_spec "a@b.com").1 "a@b.com" rfl,
   (bookingSaveEmail_spec "A@B.COM").2.2.2.2.1⟩
